import Mathlib

/-!
Verification of the vox_nav AIT*-style kinodynamic planner against its
natural-language specification.  The definitions below are a shallow
embedding of the C++ sources:

* `vox_nav_planning/include/vox_nav_planning/experimental/AITStarKin.hpp`
  (vertex properties, the two heuristic functors, the goal-found visitor,
  `computeShortestPath`, `populateOmplPathfromVertexPath`);
* the unnamed source file holding `SE2PlannerControlSpace::propagate`.

Modelling conventions:

* C++ `double` values are embedded as `ℚ`; the sentinel values
  `numeric_limits<double>::max()` (the boost search initial distance) and
  `opt_->infiniteCost().value()` (`+inf`) are both embedded as the top
  element of `WithTop ℚ`.  No claim below depends on floating-point
  rounding.
* The boost searches (`dijkstra_shortest_paths` and `astar_search_tree`)
  are embedded as one best-first loop over a finite vertex set `Fin n`
  with a settled set: vertices are dequeued in order of `dist` (Dijkstra
  mode) or `dist + h` (A* mode), and dequeuing the goal is the
  `FoundVertex` early exit.  The loop carries explicit fuel; the wrapper
  passes enough fuel (one unit per settled vertex) and a lemma shows the
  fuel can never run out, so the embedded function, like the C++ one,
  always returns either a found path or an exhausted frontier.  Two
  simplifications relative to boost: ties in the priority queue are
  broken by vertex index (boost leaves the order unspecified, and every
  concrete run below has tie-free queues), and a vertex is settled at
  most once (the boost tree variant may re-expand a vertex under an
  inconsistent heuristic; re-expansion changes no property proved here,
  which concern only the found/exhausted dichotomy, discovery-time
  blacklisting, the final map copies and the reconstruction walk).
* The heuristic functor side effects (blacklisting inside
  `PrecomputedCostHeuristic::operator()`) are embedded by threading the
  vertex-property map through heuristic evaluation, which the boost
  searches perform when a vertex is discovered or its tentative distance
  improves.
-/

attribute [local semireducible] Rat.add Rat.mul Rat.sub Rat.inv

namespace VoxNav

/-- Edge and path costs: rationals extended with the infinite sentinel. -/
abbrev Cost := WithTop ℚ

/-- AITStarKin.hpp lines 87-95: properties shared by the geometric and the
control graph vertices.  `state` and `control` are abstract type
parameters; the C++ null control pointer is `none`; `g` defaults to the
C++ initialiser `1.0e+3`. -/
structure VertexProperty (σ κ : Type) where
  state : σ
  control : Option κ := none
  control_duration : ℕ := 0
  id : ℕ := 0
  g : Cost := ((1000 : ℚ) : Cost)
  blacklisted : Bool := false
deriving DecidableEq

/-- One undirected weighted edge of a boost `adjacency_list`; the weight
lives in the mutable `WeightMap`. -/
structure EdgeR (n : ℕ) where
  src : Fin n
  dst : Fin n
  w : Cost
deriving DecidableEq

/-- AITStarKin.hpp line 160: `use_astar_hueristic_` (sic) is a
`static const bool` equal to `false`, so heuristic precomputation always
takes the Dijkstra branch of `computeShortestPath`. -/
def use_astar_hueristic : Bool := false

/-- The two heuristic functors passed to `computeShortestPath`.
`genericDistance` embeds `GenericDistanceHeuristic` (a pure per-vertex
value, `opt_->motionCost(state, goal_state)` in the C++).
`precomputedCost` embeds `PrecomputedCostHeuristic` (lines 280-305):
its value is the vertex `g` field when `si_->isValid(state)` holds and
the infinite sentinel otherwise, and evaluating it on an invalid vertex
sets that vertex `blacklisted` flag. -/
inductive HeuristicModel (n : ℕ) where
  | genericDistance (hfun : Fin n → Cost)
  | precomputedCost (valid : Fin n → Bool)

/-- Evaluate a heuristic functor at a vertex, returning its value and the
(possibly updated) vertex-property map: the side effect of
`PrecomputedCostHeuristic::operator()` lines 290-300. -/
def evalHeuristic {n : ℕ} {σ κ : Type} (hm : HeuristicModel n)
    (props : Fin n → VertexProperty σ κ) (v : Fin n) :
    Cost × (Fin n → VertexProperty σ κ) :=
  match hm with
  | .genericDistance hfun => (hfun v, props)
  | .precomputedCost valid =>
      if valid v then ((props v).g, props)
      else ((⊤ : Cost), Function.update props v { props v with blacklisted := true })

/-- Mutable state of the embedded boost search: tentative distances,
predecessor map, cached heuristic values, the settled (dequeued) set and
the vertex-property map (carried because heuristic evaluation may
blacklist vertices). -/
structure SearchState (n : ℕ) (σ κ : Type) where
  dist : Fin n → Cost
  pred : Fin n → Fin n
  hval : Fin n → Cost
  settled : Finset (Fin n)
  props : Fin n → VertexProperty σ κ

/-- Outcome of the embedded search loop: `found` is the `FoundVertex`
early exit, `exhausted` is the empty-frontier normal return; `fuelOut` is
an artefact of the fuelled embedding and is proved unreachable. -/
inductive Outcome where
  | found
  | exhausted
  | fuelOut
deriving DecidableEq

/-- Neighbours of `v` in the undirected edge list, with edge weights. -/
def incidentList {n : ℕ} (edges : List (EdgeR n)) (v : Fin n) :
    List (Fin n × Cost) :=
  edges.foldr (fun e acc =>
    if e.src = v then (e.dst, e.w) :: acc
    else if e.dst = v then (e.src, e.w) :: acc
    else acc) []

/-- Relax one edge out of the settled vertex `v`: if the tentative
distance of the target improves, update distance and predecessor, and (in
A* mode) re-evaluate the heuristic at the target, which is where
`PrecomputedCostHeuristic` performs its validity check and blacklisting. -/
def relaxNeighbor {n : ℕ} {σ κ : Type} (useH : Bool) (hm : HeuristicModel n)
    (v : Fin n) (st : SearchState n σ κ) (uw : Fin n × Cost) :
    SearchState n σ κ :=
  if st.dist v + uw.2 < st.dist uw.1 then
    let st1 : SearchState n σ κ :=
      { st with
        dist := Function.update st.dist uw.1 (st.dist v + uw.2),
        pred := Function.update st.pred uw.1 v }
    if useH then
      let hp := evalHeuristic hm st1.props uw.1
      { st1 with
        hval := Function.update st1.hval uw.1 hp.1,
        props := hp.2 }
    else st1
  else st

/-- Settle `v`: relax all of its incident edges and add it to the
settled set. -/
def stepState {n : ℕ} {σ κ : Type} (edges : List (EdgeR n)) (useH : Bool)
    (hm : HeuristicModel n) (v : Fin n) (st : SearchState n σ κ) :
    SearchState n σ κ :=
  let st1 := (incidentList edges v).foldl (relaxNeighbor useH hm v) st
  { st1 with settled := insert v st1.settled }

/-- Queue key of the embedded search: plain distance in Dijkstra mode,
distance plus cached heuristic value in A* mode. -/
def searchKey {n : ℕ} {σ κ : Type} (useH : Bool) (st : SearchState n σ κ) :
    Fin n → Cost :=
  fun v => if useH then st.dist v + st.hval v else st.dist v

/-- The frontier: discovered (finite tentative distance) vertices not yet
settled, listed in vertex order. -/
def frontierList {n : ℕ} {σ κ : Type} (st : SearchState n σ κ) :
    List (Fin n) :=
  (List.finRange n).filter
    (fun v => decide (v ∉ st.settled) && decide (st.dist v < (⊤ : Cost)))

/-- First minimiser of `key` in `l` (the vertex dequeued from the
priority queue), or `none` when the frontier is empty. -/
def pickMin {n : ℕ} (key : Fin n → Cost) : List (Fin n) → Option (Fin n)
  | [] => none
  | x :: xs => some (xs.foldl (fun b y => if key y < key b then y else b) x)

/-- The embedded best-first search loop shared by the Dijkstra and the A*
branches of `computeShortestPath`.  Each iteration dequeues the frontier
vertex with the least key; dequeuing the goal is the thrown `FoundVertex`;
an empty frontier is the normal no-path return.  One unit of fuel is spent
per settled vertex, and the wrapper supplies `n` units, which
`searchLoop_ne_fuelOut` proves sufficient. -/
def searchLoop {n : ℕ} {σ κ : Type} (edges : List (EdgeR n)) (useH : Bool)
    (hm : HeuristicModel n) (goal : Fin n) :
    ℕ → SearchState n σ κ → Outcome × SearchState n σ κ
  | 0, st =>
    match pickMin (searchKey useH st) (frontierList st) with
    | none => (Outcome.exhausted, st)
    | some v => if v = goal then (Outcome.found, st) else (Outcome.fuelOut, st)
  | fuel + 1, st =>
    match pickMin (searchKey useH st) (frontierList st) with
    | none => (Outcome.exhausted, st)
    | some v =>
      if v = goal then (Outcome.found, st)
      else searchLoop edges useH hm goal fuel (stepState edges useH hm v st)

/-- AITStarKin.hpp lines 442-453: walk the predecessor map from the goal,
pushing each visited vertex onto the front of the result and stopping at
the first self-predecessor.  The C++ loop is unbounded; the fuel only
truncates walks longer than the vertex count, which a terminating walk
never is. -/
def reconstructAux {n : ℕ} (pred : Fin n → Fin n) :
    ℕ → Fin n → List (Fin n) → List (Fin n)
  | 0, v, acc => v :: acc
  | fuel + 1, v, acc =>
    if pred v = v then v :: acc
    else reconstructAux pred fuel (pred v) (v :: acc)

/-- AITStarKin.hpp lines 443-450: while walking the reconstructed path,
if full collision checking is on, every edge incident to a blacklisted
path vertex has its weight overwritten with `opt_->infiniteCost()`.
Setting a weight to the sentinel is idempotent, so the per-vertex updates
of the C++ loop are embedded as one pass over the weight map. -/
def blacklistWeights {n : ℕ} {σ κ : Type}
    (props : Fin n → VertexProperty σ κ) (path : List (Fin n))
    (full_collision_check : Bool) (weights : List (EdgeR n)) :
    List (EdgeR n) :=
  if full_collision_check then
    weights.map (fun e =>
      if path.any (fun v =>
          (props v).blacklisted && (e.src = v || e.dst = v))
      then { e with w := (⊤ : Cost) }
      else e)
  else weights

/-- Everything `computeShortestPath` leaves behind: the returned vertex
list, the vertex-property map (with `g` fields overwritten and blacklist
flags set), the weight map, the raw distance and predecessor maps of the
search, and the internal outcome. -/
structure SPResult (n : ℕ) (σ κ : Type) where
  path : List (Fin n)
  props : Fin n → VertexProperty σ κ
  weights : List (EdgeR n)
  dist : Fin n → Cost
  pred : Fin n → Fin n
  outcome : Outcome

/-- Boost initialisation shared by `dijkstra_shortest_paths` and
`astar_search_tree`: all distances infinite except the start at `0`, the
predecessor map the identity; in A* mode the heuristic is evaluated at
the start vertex when it is first queued. -/
def initialState {n : ℕ} {σ κ : Type} (props : Fin n → VertexProperty σ κ)
    (useH : Bool) (hm : HeuristicModel n) (start : Fin n) :
    SearchState n σ κ :=
  let base : SearchState n σ κ :=
    { dist := Function.update (fun _ => (⊤ : Cost)) start 0,
      pred := fun v => v,
      hval := fun _ => 0,
      settled := ∅,
      props := props }
  if useH then
    let hp := evalHeuristic hm props start
    { base with
      hval := Function.update base.hval start hp.1,
      props := hp.2 }
  else base

/-- Which search branch of `computeShortestPath` runs: with
`precompute_heuristic` true the dead `if constexpr (use_astar_hueristic_)`
branch selects plain Dijkstra (no heuristic), otherwise A* with the
supplied heuristic runs. -/
def searchUseH (precompute_heuristic : Bool) : Bool :=
  if precompute_heuristic then use_astar_hueristic else true

/-- The try/catch structure of `computeShortestPath` after the search
loop returns.  On the `FoundVertex` catch (lines 432-454) every vertex
`g` field is overwritten with its tentative distance, the path is
reconstructed from the predecessor map, and (with full collision check)
edges incident to blacklisted path vertices get the infinite weight.  On
the normal return (line 430) the empty list comes back and neither the
`g` fields nor the weight map are touched. -/
def assembleResult {n : ℕ} {σ κ : Type} (edges : List (EdgeR n))
    (full_collision_check : Bool) (goal : Fin n) :
    Outcome × SearchState n σ κ → SPResult n σ κ
  | (Outcome.found, stf) =>
    let props1 := fun v => { stf.props v with g := stf.dist v }
    let path := reconstructAux stf.pred n goal []
    { path := path,
      props := props1,
      weights := blacklistWeights props1 path full_collision_check edges,
      dist := stf.dist,
      pred := stf.pred,
      outcome := Outcome.found }
  | (o, stf) =>
    { path := [],
      props := stf.props,
      weights := edges,
      dist := stf.dist,
      pred := stf.pred,
      outcome := o }

/-- AITStarKin.hpp lines 395-456, `computeShortestPath`: run the selected
search from `start` and assemble the result. -/
def computeShortestPath {n : ℕ} {σ κ : Type} (edges : List (EdgeR n))
    (props : Fin n → VertexProperty σ κ) (heuristic : HeuristicModel n)
    (start goal : Fin n) (precompute_heuristic full_collision_check : Bool) :
    SPResult n σ κ :=
  let useH := searchUseH precompute_heuristic
  assembleResult edges full_collision_check goal
    (searchLoop edges useH heuristic goal n
      (initialState props useH heuristic start))

/-- One element of an OMPL `PathControl`: `append(state)` adds a bare
state waypoint, `append(state, control, duration)` adds a timed
state-control segment. -/
inductive PathElem (σ κ : Type) where
  | stateOnly (s : σ)
  | withControl (s : σ) (c : κ) (duration : ℚ)
deriving DecidableEq

/-- AITStarKin.hpp lines 471-498, `populateOmplPathfromVertexPath`,
embedded with explicit state passing: the graph vertex-property map is
threaded because the function stores freshly allocated controls back into
the graph.  `allocControl` stands for the (not zero-initialised) result
of `siC_->allocControl()`; `stepSize` for
`siC_->getPropagationStepSize()`.  For each vertex, a missing control is
first allocated and stored; then the vertex at `index == 0` is appended
as a bare state and every later vertex as
`(state, control, control_duration * stepSize)`. -/
def populateAux {n : ℕ} {σ κ : Type} (allocControl : κ) (stepSize : ℚ) :
    List (Fin n) → (Fin n → VertexProperty σ κ) → ℕ →
    List (PathElem σ κ) × (Fin n → VertexProperty σ κ)
  | [], props, _ => ([], props)
  | i :: rest, props, index =>
    let props1 :=
      if (props i).control.isNone then
        Function.update props i { props i with control := some allocControl }
      else props
    let elem :=
      if index = 0 then PathElem.stateOnly (props1 i).state
      else
        PathElem.withControl (props1 i).state ((props1 i).control.getD allocControl)
          (((props1 i).control_duration : ℚ) * stepSize)
    let r := populateAux allocControl stepSize rest props1 (index + 1)
    (elem :: r.1, r.2)

/-- Entry point of the embedded `populateOmplPathfromVertexPath`: starts
the walk at `index = 0` like the C++ local `int index{0}`. -/
def populateOmplPathfromVertexPath {n : ℕ} {σ κ : Type}
    (vertex_path : List (Fin n)) (props : Fin n → VertexProperty σ κ)
    (allocControl : κ) (stepSize : ℚ) :
    List (PathElem σ κ) × (Fin n → VertexProperty σ κ) :=
  populateAux allocControl stepSize vertex_path props 0

/-- The compound SE2-plus-velocity state of `SE2PlannerControlSpace`:
position, yaw and the one-dimensional velocity substate. -/
structure SE2CompoundState where
  x : ℚ
  y : ℚ
  yaw : ℚ
  velocity : ℚ
deriving DecidableEq

/-- A `RealVectorControlSpace` control of dimension 2: acceleration and
steering angle. -/
structure ControlInput where
  acc : ℚ
  steer : ℚ
deriving DecidableEq

/-- Abstract trigonometric functions: the frame-effect claims about
`propagate` are independent of the numeric values of `cos`, `sin` and
`tan`, so they are supplied as parameters instead of embedding floating
point. -/
structure TrigModel where
  cosF : ℚ → ℚ
  sinF : ℚ → ℚ
  tanF : ℚ → ℚ

/-- The hard-coded `vehicle_length = 1.32` of the bicycle model. -/
def vehicle_length : ℚ := 132 / 100

/-- `SE2PlannerControlSpace::propagate` (unnamed source file lines
276-307), embedded with explicit state passing: the pair returned is
(state of the `start` argument after the call, state of the `result`
argument after the call).  The C++ writes the updated position and yaw
through `result` but writes the updated velocity through `v_state`, a
pointer into `start`, and never assigns the velocity component of
`result`. -/
def propagate (trig : TrigModel) (start : SE2CompoundState)
    (control : ControlInput) (duration : ℚ) (result : SE2CompoundState) :
    SE2CompoundState × SE2CompoundState :=
  let velocity := start.velocity
  let x_n := start.x + velocity * duration * trig.cosF start.yaw
  let y_n := start.y + velocity * duration * trig.sinF start.yaw
  let velocity_n := velocity + control.acc * duration
  let lengthInv := 1 / vehicle_length
  let omega := velocity * lengthInv * trig.tanF control.steer
  let theta_n := start.yaw + omega * duration
  ({ start with velocity := velocity_n },
   { result with x := x_n, y := y_n, yaw := theta_n })

/-- Weight of the first edge joining `u` and `v` (in either orientation)
in an undirected edge list, used to define ground-truth walk costs. -/
def edgeWeightBetween {n : ℕ} (edges : List (EdgeR n)) (u v : Fin n) :
    Option Cost :=
  match edges.find? (fun e => (e.src = u && e.dst = v) || (e.src = v && e.dst = u)) with
  | some e => some e.w
  | none => none

/-- Cost of a walk given as its vertex list: `none` when some consecutive
pair is not joined by an edge (or the list is empty). -/
def walkCost {n : ℕ} (edges : List (EdgeR n)) : List (Fin n) → Option Cost
  | [] => none
  | [_] => some 0
  | u :: v :: rest =>
    match edgeWeightBetween edges u v, walkCost edges (v :: rest) with
    | some w, some c => some (w + c)
    | _, _ => none

/-- `c` is the single-source shortest-path distance from `s` to `v`:
a lower bound on the cost of every walk from `s` to `v`, attained by some
walk unless it is the infinite value. -/
def IsShortestDistFrom {n : ℕ} (edges : List (EdgeR n)) (s v : Fin n)
    (c : Cost) : Prop :=
  (∀ l cl, l.head? = some s → l.getLast? = some v →
      walkCost edges l = some cl → c ≤ cl) ∧
  (c = (⊤ : Cost) ∨
    ∃ l, l.head? = some s ∧ l.getLast? = some v ∧ walkCost edges l = some c)

/-- An edge of the control graph, labelled by the forward-simulated
`(control, duration)` pair, spec section 4.3. -/
structure ControlEdge (κ : Type) where
  src : ℕ
  dst : ℕ
  ctrl : κ
  dur : ℕ
deriving DecidableEq

/-- The control graph: a vertex store of states plus labelled edges. -/
structure ControlGraph (σ κ : Type) where
  verts : List σ
  edges : List (ControlEdge κ)
deriving DecidableEq

/-- Modelled from the spec: the body of `expandControlGraph` is not under
src/ (AITStarKin.hpp lines 384-393 only declare it, noting that only
non-violating states are added and the rest discarded).  Spec section
4.3: from the chosen source vertex, forward-simulate the candidate
control for its duration; keep the resulting end-state as a new vertex
with an edge labelled `(control, duration)` only if the simulated
trajectory and its endpoint pass validity checking; otherwise discard the
whole candidate, leaving the graph unchanged.  `prop` returns the
simulated trajectory (endpoint last); a candidate is a triple of source
vertex index, control and duration. -/
def expandControlStep {σ κ : Type} (valid : σ → Bool)
    (prop : σ → κ → ℕ → List σ) (g : ControlGraph σ κ) (cand : ℕ × κ × ℕ) :
    ControlGraph σ κ :=
  match g.verts.get? cand.1 with
  | none => g
  | some s =>
    let traj := prop s cand.2.1 cand.2.2
    match traj.getLast? with
    | none => g
    | some t =>
      if traj.all valid then
        { verts := g.verts ++ [t],
          edges := g.edges ++
            [{ src := cand.1, dst := g.verts.length,
               ctrl := cand.2.1, dur := cand.2.2 }] }
      else g

/-- Modelled from the spec: process a batch of expansion candidates in
order (spec section 4.3). -/
def expandControlGraph {σ κ : Type} (valid : σ → Bool)
    (prop : σ → κ → ℕ → List σ) (g : ControlGraph σ κ)
    (cands : List (ℕ × κ × ℕ)) : ControlGraph σ κ :=
  cands.foldl (expandControlStep valid prop) g

/-- A control-graph edge is dynamically feasible: its source vertex
exists, the forward simulation of its label from that source passes the
validity oracle along the whole trajectory, and its destination vertex
holds exactly the simulated endpoint. -/
def ControlEdgeValid {σ κ : Type} (valid : σ → Bool)
    (prop : σ → κ → ℕ → List σ) (g : ControlGraph σ κ)
    (e : ControlEdge κ) : Prop :=
  ∃ s t, g.verts.get? e.src = some s ∧
    (prop s e.ctrl e.dur).getLast? = some t ∧
    (prop s e.ctrl e.dur).all valid = true ∧
    g.verts.get? e.dst = some t

/-- The best-path record of the planner driver, spec section 3
(AITStarKin.hpp lines 196-206 declare the fields). -/
structure BestPathState (P : Type) where
  bestGeometricCost : Cost
  bestControlCost : Cost
  bestGeometricPath : Option P
  bestControlPath : Option P
deriving DecidableEq

/-- What one expansion-search round offers to the driver: an optional
newly found geometric path with its cost, and likewise for control. -/
structure RoundCandidate (P : Type) where
  geometric : Option (Cost × P)
  control : Option (Cost × P)

/-- Modelled from the spec: the body of `solve` is not under src/ (only
declared, AITStarKin.hpp line 73).  Spec sections 3 and 4.6: the
best-path record is updated only when a newly found path strictly
improves the recorded cost. -/
def updateBestWith {P : Type} (cur : Cost) (curP : Option P)
    (cand : Option (Cost × P)) : Cost × Option P :=
  match cand with
  | none => (cur, curP)
  | some cp => if cp.1 < cur then (cp.1, some cp.2) else (cur, curP)

/-- Modelled from the spec: one driver round merges the round candidates
into the best-path record (spec section 4.6 loop body). -/
def solveRound {P : Type} (b : BestPathState P) (r : RoundCandidate P) :
    BestPathState P :=
  let gg := updateBestWith b.bestGeometricCost b.bestGeometricPath r.geometric
  let cc := updateBestWith b.bestControlCost b.bestControlPath r.control
  { bestGeometricCost := gg.1, bestGeometricPath := gg.2,
    bestControlCost := cc.1, bestControlPath := cc.2 }

/-- Modelled from the spec: successive rounds of one `solve` call fold
over the best-path record (spec section 4.6). -/
def solveRounds {P : Type} (b : BestPathState P)
    (rs : List (RoundCandidate P)) : BestPathState P :=
  rs.foldl solveRound b

/-- The geometric graph of the spec-modelled builder: a vertex store of
states plus weighted edges given by vertex-store indices. -/
structure GeoGraph (σ : Type) where
  verts : List σ
  edges : List (ℕ × ℕ × ℚ)
deriving DecidableEq

/-- Index the elements of a list starting at `k`. -/
def withIdx {σ : Type} : List σ → ℕ → List (ℕ × σ)
  | [], _ => []
  | a :: l, k => (k, a) :: withIdx l (k + 1)

/-- Modelled from the spec: the body of `expandGeometricGraph` is not
under src/ (AITStarKin.hpp lines 368-374 only declare it).  Spec sections
4.2 and 8: for each new sample, query the neighbour index for vertices
within `radius`; if some neighbour is closer than
`min_dist_between_vertices` the sample is rejected as a near-duplicate
(deduplication: neither vertex nor edges are added); otherwise the sample
is inserted as a vertex and edges are added to at most `max_neighbors`
neighbours whose distance does not exceed `max_dist_between_vertices`. -/
def expandGeoStep {σ : Type} (dist : σ → σ → ℚ)
    (min_dist max_dist radius : ℚ) (max_neighbors : ℕ) (g : GeoGraph σ)
    (s : σ) : GeoGraph σ :=
  let nbh := (withIdx g.verts 0).filter (fun p => dist s p.2 ≤ radius)
  if nbh.any (fun p => dist s p.2 < min_dist) then g
  else
    { verts := g.verts ++ [s],
      edges := g.edges ++
        ((nbh.filter (fun p => dist s p.2 ≤ max_dist)).take max_neighbors).map
          (fun p => (g.verts.length, p.1, dist s p.2)) }

/-- Modelled from the spec: process a batch of samples in order (spec
section 4.2). -/
def expandGeometricGraph {σ : Type} (dist : σ → σ → ℚ)
    (min_dist max_dist radius : ℚ) (max_neighbors : ℕ) (g : GeoGraph σ)
    (samples : List σ) : GeoGraph σ :=
  samples.foldl (expandGeoStep dist min_dist max_dist radius max_neighbors) g

/-- No two distinct vertices of the store are closer than `min_dist`. -/
def Separated {σ : Type} (dist : σ → σ → ℚ) (min_dist : ℚ)
    (verts : List σ) : Prop :=
  ∀ i j si sj, i ≠ j → verts.get? i = some si → verts.get? j = some sj →
    min_dist ≤ dist si sj

/-- Concrete three-vertex property map used by the example searches:
states are the vertex indices, precomputed `g` values all zero. -/
def exProps3 : Fin 3 → VertexProperty ℕ ℕ :=
  fun v => { state := v.val, g := 0 }

/-- Concrete validity oracle: vertex 2 is in collision, the others are
free. -/
def exValid3 : Fin 3 → Bool := fun v => !(v == 2)

/-- Star graph: edges 0-1 and 0-2, both of weight 1.  Searching 0 to 1
discovers the invalid vertex 2 without routing through it. -/
def exEdgesBranch : List (EdgeR 3) :=
  [⟨0, 1, ((1 : ℚ) : Cost)⟩, ⟨0, 2, ((1 : ℚ) : Cost)⟩]

/-- Chain graph: edges 0-2 and 2-1, so the only route from 0 to 1 passes
through the invalid vertex 2. -/
def exEdgesChain : List (EdgeR 3) :=
  [⟨0, 2, ((1 : ℚ) : Cost)⟩, ⟨2, 1, ((1 : ℚ) : Cost)⟩]

/-- Path graph: edges 0-1 and 1-2.  A search from 0 with goal 1 stops
before ever discovering vertex 2. -/
def exEdgesPath : List (EdgeR 3) :=
  [⟨0, 1, ((1 : ℚ) : Cost)⟩, ⟨1, 2, ((1 : ℚ) : Cost)⟩]

/-- The collision-checked search on the star graph (goal 1, full
collision check on): vertex 2 is discovered and blacklisted but is not on
the returned path. -/
def exRunBranch : SPResult 3 ℕ ℕ :=
  computeShortestPath exEdgesBranch exProps3
    (HeuristicModel.precomputedCost exValid3) 0 1 false true

/-- The collision-checked search on the chain graph: the blacklisted
vertex 2 lies on the returned path, so its incident edges get the
infinite weight. -/
def exRunChain : SPResult 3 ℕ ℕ :=
  computeShortestPath exEdgesChain exProps3
    (HeuristicModel.precomputedCost exValid3) 0 1 false true

/-- The heuristic-precomputation pass on the path graph from source 0
with goal 1: the early exit fires before vertex 2 is discovered. -/
def exRunPath : SPResult 3 ℕ ℕ :=
  computeShortestPath exEdgesPath exProps3
    (HeuristicModel.genericDistance (fun _ => 0)) 0 1 true false

/-- A one-vertex property map whose vertex has a recorded control with a
nonzero duration, for exercising `populateOmplPathfromVertexPath`. -/
def exPropsCtrl : Fin 1 → VertexProperty ℕ ℕ :=
  fun _ => { state := 7, control := some 5, control_duration := 3 }

/-- A two-vertex property map: vertex 0 has no recorded control, vertex 1
has a recorded control of duration 2. -/
def exPropsTwo : Fin 2 → VertexProperty ℕ ℕ :=
  fun v =>
    if v = 0 then { state := 10 }
    else { state := 11, control := some 6, control_duration := 2 }

/-- Trajectory simulator for the control-graph example: a single step to
the state shifted by the control. -/
def exPropagateTraj : ℕ → ℕ → ℕ → List ℕ := fun s c _ => [s + c]

/-- Control-graph example: one initial vertex holding state 0 and no
edges. -/
def exCGraph : ControlGraph ℕ ℕ := { verts := [0], edges := [] }

/-- Distance function of the geometric-graph example: absolute difference
of rationals. -/
def exDistQ : ℚ → ℚ → ℚ := fun a b => |a - b|

/-- Geometric-graph example: expand the empty graph with samples 0
and 2 using separation 1, maximal edge length 3, radius 5. -/
def exGeoRun : GeoGraph ℚ :=
  expandGeometricGraph exDistQ 1 3 5 10 { verts := [], edges := [] } [0, 2]

/-- Best-path example: the initial record with infinite costs and no
paths. -/
def exBest0 : BestPathState ℕ :=
  { bestGeometricCost := ⊤, bestControlCost := ⊤,
    bestGeometricPath := none, bestControlPath := none }

/-- Best-path example: a round that found a geometric path of cost 5. -/
def exRound : RoundCandidate ℕ :=
  { geometric := some (((5 : ℚ) : Cost), 17), control := none }

/-- The blacklist invariant carried through the collision-checked search:
a vertex is blacklisted exactly when it was blacklisted on entry, or its
state fails validity and the search has discovered it (its tentative
distance is finite). -/
def BlkInv {n : ℕ} {σ κ : Type} (props0 : Fin n → VertexProperty σ κ)
    (valid : Fin n → Bool) (st : SearchState n σ κ) : Prop :=
  ∀ v, ((st.props v).blacklisted = true ↔
    ((props0 v).blacklisted = true ∨
      (valid v = false ∧ st.dist v < (⊤ : Cost))))

/-- The relation between a vertex-property map and the result of storing
freshly allocated controls into some of its vertices:
each vertex is unchanged, or had no control and now holds the allocated
one, with every other field intact. -/
def ControlFill {n : ℕ} {σ κ : Type} (allocControl : κ)
    (props0 props1 : Fin n → VertexProperty σ κ) : Prop :=
  ∀ v, props1 v = props0 v ∨
    ((props0 v).control = none ∧
      props1 v = { props0 v with control := some allocControl })

theorem argmin_mem {n : ℕ} (key : Fin n → Cost) :
    ∀ (xs : List (Fin n)) (b : Fin n),
      xs.foldl (fun b y => if key y < key b then y else b) b ∈ b :: xs := by
  intro xs
  induction xs with
  | nil => intro b; simp
  | cons y ys ih =>
    intro b
    simp only [List.foldl_cons]
    have h := ih (if key y < key b then y else b)
    rcases List.mem_cons.mp h with h1 | h1
    · rw [h1]
      split
      · exact List.mem_cons_of_mem _ (List.mem_cons_self _ _)
      · exact List.mem_cons_self _ _
    · exact List.mem_cons_of_mem _ (List.mem_cons_of_mem _ h1)

theorem pickMin_mem {n : ℕ} {key : Fin n → Cost} :
    ∀ {l : List (Fin n)} {v : Fin n}, pickMin key l = some v → v ∈ l := by
  intro l v h
  match l with
  | [] => simp [pickMin] at h
  | x :: xs =>
    simp only [pickMin, Option.some.injEq] at h
    rw [← h]
    exact argmin_mem key xs x

theorem mem_frontierList {n : ℕ} {σ κ : Type} {st : SearchState n σ κ}
    {v : Fin n} :
    v ∈ frontierList st ↔ v ∉ st.settled ∧ st.dist v < (⊤ : Cost) := by
  simp [frontierList, List.mem_filter]

theorem relaxNeighbor_settled {n : ℕ} {σ κ : Type} (useH : Bool)
    (hm : HeuristicModel n) (v : Fin n) (st : SearchState n σ κ)
    (uw : Fin n × Cost) :
    (relaxNeighbor useH hm v st uw).settled = st.settled := by
  unfold relaxNeighbor
  split
  · split <;> rfl
  · rfl

theorem relaxFold_settled {n : ℕ} {σ κ : Type} (useH : Bool)
    (hm : HeuristicModel n) (v : Fin n) :
    ∀ (l : List (Fin n × Cost)) (st : SearchState n σ κ),
      (l.foldl (relaxNeighbor useH hm v) st).settled = st.settled := by
  intro l
  induction l with
  | nil => intro st; rfl
  | cons uw l ih =>
    intro st
    simp only [List.foldl_cons]
    rw [ih, relaxNeighbor_settled]

theorem stepState_settled {n : ℕ} {σ κ : Type} (edges : List (EdgeR n))
    (useH : Bool) (hm : HeuristicModel n) (v : Fin n)
    (st : SearchState n σ κ) :
    (stepState edges useH hm v st).settled = insert v st.settled := by
  unfold stepState
  dsimp only
  rw [relaxFold_settled]

theorem initialState_settled {n : ℕ} {σ κ : Type}
    (props : Fin n → VertexProperty σ κ) (useH : Bool)
    (hm : HeuristicModel n) (start : Fin n) :
    (initialState props useH hm start).settled = ∅ := by
  unfold initialState
  split <;> rfl

theorem searchLoop_ne_fuelOut {n : ℕ} {σ κ : Type} (edges : List (EdgeR n))
    (useH : Bool) (hm : HeuristicModel n) (goal : Fin n) :
    ∀ (fuel : ℕ) (st : SearchState n σ κ), n ≤ fuel + st.settled.card →
      (searchLoop edges useH hm goal fuel st).1 ≠ Outcome.fuelOut := by
  intro fuel
  induction fuel with
  | zero =>
    intro st hle
    have huniv : st.settled = Finset.univ := by
      apply Finset.eq_univ_of_card
      refine le_antisymm (by simpa using Finset.card_le_univ st.settled) ?_
      simpa using hle
    have hfr : frontierList st = [] := by
      apply List.filter_eq_nil_iff.mpr
      intro a _
      simp [huniv]
    simp [searchLoop, hfr, pickMin]
  | succ fuel ih =>
    intro st hle
    simp only [searchLoop]
    rcases hp : pickMin (searchKey useH st) (frontierList st) with _ | v
    · simp
    · simp only
      by_cases hv : v = goal
      · simp [hv]
      · rw [if_neg hv]
        apply ih
        have hvs : v ∉ st.settled :=
          (mem_frontierList.mp (pickMin_mem hp)).1
        rw [stepState_settled, Finset.card_insert_of_not_mem hvs]
        omega

theorem searchLoop_inv {n : ℕ} {σ κ : Type} (edges : List (EdgeR n))
    (useH : Bool) (hm : HeuristicModel n) (goal : Fin n)
    (P : SearchState n σ κ → Prop)
    (hstep : ∀ st v, P st → P (stepState edges useH hm v st)) :
    ∀ (fuel : ℕ) (st : SearchState n σ κ), P st →
      P (searchLoop edges useH hm goal fuel st).2 := by
  intro fuel
  induction fuel with
  | zero =>
    intro st hP
    simp only [searchLoop]
    rcases pickMin (searchKey useH st) (frontierList st) with _ | v
    · exact hP
    · simp only
      split <;> exact hP
  | succ fuel ih =>
    intro st hP
    simp only [searchLoop]
    rcases pickMin (searchKey useH st) (frontierList st) with _ | v
    · exact hP
    · simp only
      split
      · exact hP
      · exact ih _ (hstep st v hP)

theorem reconstructAux_ne_nil {n : ℕ} (pred : Fin n → Fin n) :
    ∀ (fuel : ℕ) (v : Fin n) (acc : List (Fin n)),
      reconstructAux pred fuel v acc ≠ [] := by
  intro fuel
  induction fuel with
  | zero => intro v acc; simp [reconstructAux]
  | succ f ih =>
    intro v acc
    simp only [reconstructAux]
    split
    · simp
    · exact ih _ _

theorem reconstructAux_getLast {n : ℕ} (pred : Fin n → Fin n) :
    ∀ (fuel : ℕ) (v : Fin n) (acc : List (Fin n)),
      (reconstructAux pred fuel v acc).getLast? = (v :: acc).getLast? := by
  intro fuel
  induction fuel with
  | zero => intro v acc; rfl
  | succ f ih =>
    intro v acc
    simp only [reconstructAux]
    split
    · rfl
    · rw [ih, List.getLast?_cons_cons]

theorem reconstructAux_head_fix {n : ℕ} (pred : Fin n → Fin n) :
    ∀ (fuel : ℕ) (v : Fin n) (acc : List (Fin n)),
      (∃ k, k ≤ fuel ∧ pred (pred^[k] v) = pred^[k] v) →
      ∃ a t, reconstructAux pred fuel v acc = a :: t ∧ pred a = a := by
  intro fuel
  induction fuel with
  | zero =>
    rintro v acc ⟨k, hk, hfix⟩
    have hk0 : k = 0 := Nat.le_zero.mp hk
    subst hk0
    simp only [Function.iterate_zero, id] at hfix
    exact ⟨v, acc, rfl, hfix⟩
  | succ f ih =>
    rintro v acc ⟨k, hk, hfix⟩
    simp only [reconstructAux]
    by_cases h : pred v = v
    · rw [if_pos h]
      exact ⟨v, acc, rfl, h⟩
    · rw [if_neg h]
      apply ih
      cases k with
      | zero =>
        simp only [Function.iterate_zero, id] at hfix
        exact absurd hfix h
      | succ k =>
        refine ⟨k, by omega, ?_⟩
        rwa [Function.iterate_succ_apply] at hfix

theorem reconstructAux_chain {n : ℕ} (pred : Fin n → Fin n) :
    ∀ (fuel : ℕ) (v : Fin n) (acc : List (Fin n)),
      List.Chain' (fun a b => pred b = a) (v :: acc) →
      List.Chain' (fun a b => pred b = a) (reconstructAux pred fuel v acc) := by
  intro fuel
  induction fuel with
  | zero => intro v acc h; exact h
  | succ f ih =>
    intro v acc h
    simp only [reconstructAux]
    split
    · exact h
    · exact ih _ _ (List.chain'_cons.mpr ⟨rfl, h⟩)

/-- Case analysis on `computeShortestPath`: the fuelled loop never runs
out, on the found outcome the returned path is the predecessor walk, and
on any other outcome the returned path is empty. -/
theorem csp_cases {n : ℕ} {σ κ : Type} (edges : List (EdgeR n))
    (props : Fin n → VertexProperty σ κ) (heuristic : HeuristicModel n)
    (start goal : Fin n) (pre fcc : Bool) :
    (computeShortestPath edges props heuristic start goal pre fcc).outcome ≠
        Outcome.fuelOut ∧
    ((computeShortestPath edges props heuristic start goal pre fcc).outcome =
        Outcome.found →
      (computeShortestPath edges props heuristic start goal pre fcc).path =
        reconstructAux
          (computeShortestPath edges props heuristic start goal pre fcc).pred
          n goal []) ∧
    ((computeShortestPath edges props heuristic start goal pre fcc).outcome ≠
        Outcome.found →
      (computeShortestPath edges props heuristic start goal pre fcc).path = []) := by
  unfold computeShortestPath
  dsimp only
  rcases h : searchLoop edges (searchUseH pre) heuristic goal n
      (initialState props (searchUseH pre) heuristic start) with ⟨o, stf⟩
  have hno : o ≠ Outcome.fuelOut := by
    have hcard : n ≤ n +
        (initialState props (searchUseH pre) heuristic start).settled.card :=
      Nat.le_add_right _ _
    have hne := searchLoop_ne_fuelOut edges (searchUseH pre) heuristic goal n
      (initialState props (searchUseH pre) heuristic start) hcard
    rw [h] at hne
    exact hne
  cases o with
  | found => simp [assembleResult]
  | exhausted => simp [assembleResult]
  | fuelOut => exact absurd rfl hno

/-- Claim C1: for every graph and start/goal pair, `computeShortestPath`
returns the reconstructed vertex path exactly when the goal vertex is
dequeued (the internal `FoundVertex` early exit) and the empty list when
the frontier is exhausted without examining the goal; the embedded
function always returns one of these two outcomes (the fuel artefact is
unreachable), so frontier exhaustion is an ordinary no-path result and no
exception escapes. -/
theorem C1_found_or_exhausted {n : ℕ} {σ κ : Type} (edges : List (EdgeR n))
    (props : Fin n → VertexProperty σ κ) (heuristic : HeuristicModel n)
    (start goal : Fin n) (pre fcc : Bool) :
    ((computeShortestPath edges props heuristic start goal pre fcc).outcome =
        Outcome.found ∨
      (computeShortestPath edges props heuristic start goal pre fcc).outcome =
        Outcome.exhausted) ∧
    ((computeShortestPath edges props heuristic start goal pre fcc).outcome =
        Outcome.found →
      (computeShortestPath edges props heuristic start goal pre fcc).path =
        reconstructAux
          (computeShortestPath edges props heuristic start goal pre fcc).pred
          n goal [] ∧
      (computeShortestPath edges props heuristic start goal pre fcc).path ≠ []) ∧
    ((computeShortestPath edges props heuristic start goal pre fcc).outcome =
        Outcome.exhausted →
      (computeShortestPath edges props heuristic start goal pre fcc).path = []) ∧
    ((computeShortestPath edges props heuristic start goal pre fcc).path = [] ↔
      (computeShortestPath edges props heuristic start goal pre fcc).outcome =
        Outcome.exhausted) := by
  obtain ⟨hno, hfound, hnot⟩ :=
    csp_cases edges props heuristic start goal pre fcc
  rcases ho : (computeShortestPath edges props heuristic start goal pre fcc).outcome
    with _ | _ | _
  · refine ⟨Or.inl rfl, fun _ => ⟨hfound ho, ?_⟩, fun hc => by simp at hc, ?_⟩
    · rw [hfound ho]
      exact reconstructAux_ne_nil _ _ _ _
    · constructor
      · intro hp
        have := hfound ho
        rw [hp] at this
        exact absurd this.symm (reconstructAux_ne_nil _ _ _ _)
      · intro hc
        simp [ho] at hc
  · have hpath :
        (computeShortestPath edges props heuristic start goal pre fcc).path = [] :=
      hnot (by simp [ho])
    exact ⟨Or.inr rfl, fun hc => by simp [ho] at hc, fun _ => hpath,
      by simp [hpath, ho]⟩
  · exact absurd ho hno

/-- Witness for C1: on the concrete path graph the search finds goal 1
from start 0 and returns the nonempty reconstructed path. -/
theorem C1_witness :
    (computeShortestPath exEdgesPath exProps3
      (HeuristicModel.genericDistance (fun _ => 0)) 0 1 true false).path ≠ [] :=
  ((C1_found_or_exhausted exEdgesPath exProps3
    (HeuristicModel.genericDistance (fun _ => 0)) 0 1 true false).2.1
      (by decide)).2

/-- Claim C6: when the goal vertex is found, the returned path is the
predecessor walk from the goal (each vertex pushed onto the front,
stopping at the first self-predecessor), so the list is nonempty, its
last element is the goal, its first element is a self-predecessor, and
every consecutive pair is linked by the predecessor map.  The hypothesis
that the predecessor walk reaches a self-predecessor within `n` steps is
the termination condition of the unbounded C++ loop. -/
theorem C6_reconstruction {n : ℕ} {σ κ : Type} (edges : List (EdgeR n))
    (props : Fin n → VertexProperty σ κ) (heuristic : HeuristicModel n)
    (start goal : Fin n) (pre fcc : Bool)
    (hfound : (computeShortestPath edges props heuristic start goal pre fcc).outcome =
      Outcome.found)
    (hterm : ∃ k, k ≤ n ∧
      (computeShortestPath edges props heuristic start goal pre fcc).pred
        (((computeShortestPath edges props heuristic start goal pre fcc).pred)^[k] goal) =
      ((computeShortestPath edges props heuristic start goal pre fcc).pred)^[k] goal) :
    (computeShortestPath edges props heuristic start goal pre fcc).path ≠ [] ∧
    (computeShortestPath edges props heuristic start goal pre fcc).path.getLast? =
      some goal ∧
    (∃ a t, (computeShortestPath edges props heuristic start goal pre fcc).path =
      a :: t ∧
      (computeShortestPath edges props heuristic start goal pre fcc).pred a = a) ∧
    List.Chain'
      (fun a b => (computeShortestPath edges props heuristic start goal pre fcc).pred b = a)
      (computeShortestPath edges props heuristic start goal pre fcc).path := by
  have hpath := (csp_cases edges props heuristic start goal pre fcc).2.1 hfound
  refine ⟨?_, ?_, ?_, ?_⟩
  · rw [hpath]
    exact reconstructAux_ne_nil _ _ _ _
  · rw [hpath, reconstructAux_getLast]
    rfl
  · rw [hpath]
    exact reconstructAux_head_fix _ _ _ _ hterm
  · rw [hpath]
    exact reconstructAux_chain _ _ _ _ (List.chain'_singleton _)

/-- Witness for C6: the found search on the concrete path graph yields
the reconstructed path with all four reconstruction properties. -/
theorem C6_witness :
    (computeShortestPath exEdgesPath exProps3
        (HeuristicModel.genericDistance (fun _ => 0)) 0 1 true false).path ≠ [] ∧
    (computeShortestPath exEdgesPath exProps3
        (HeuristicModel.genericDistance (fun _ => 0)) 0 1 true false).path.getLast? =
      some 1 ∧
    (∃ a t, (computeShortestPath exEdgesPath exProps3
        (HeuristicModel.genericDistance (fun _ => 0)) 0 1 true false).path = a :: t ∧
      (computeShortestPath exEdgesPath exProps3
        (HeuristicModel.genericDistance (fun _ => 0)) 0 1 true false).pred a = a) ∧
    List.Chain'
      (fun a b => (computeShortestPath exEdgesPath exProps3
        (HeuristicModel.genericDistance (fun _ => 0)) 0 1 true false).pred b = a)
      (computeShortestPath exEdgesPath exProps3
        (HeuristicModel.genericDistance (fun _ => 0)) 0 1 true false).path :=
  C6_reconstruction exEdgesPath exProps3
    (HeuristicModel.genericDistance (fun _ => 0)) 0 1 true false
    (by decide) ⟨1, by decide, by decide⟩

theorem relaxNeighbor_props_of_false {n : ℕ} {σ κ : Type}
    (hm : HeuristicModel n) (v : Fin n) (st : SearchState n σ κ)
    (uw : Fin n × Cost) :
    (relaxNeighbor false hm v st uw).props = st.props := by
  unfold relaxNeighbor
  split <;> rfl

theorem relaxFold_props_of_false {n : ℕ} {σ κ : Type}
    (hm : HeuristicModel n) (v : Fin n) :
    ∀ (l : List (Fin n × Cost)) (st : SearchState n σ κ),
      (l.foldl (relaxNeighbor false hm v) st).props = st.props := by
  intro l
  induction l with
  | nil => intro st; rfl
  | cons uw l ih =>
    intro st
    simp only [List.foldl_cons]
    rw [ih, relaxNeighbor_props_of_false]

theorem stepState_props_of_false {n : ℕ} {σ κ : Type} (edges : List (EdgeR n))
    (hm : HeuristicModel n) (v : Fin n) (st : SearchState n σ κ) :
    (stepState edges false hm v st).props = st.props := by
  unfold stepState
  dsimp only
  rw [relaxFold_props_of_false]

theorem searchLoop_props_of_false {n : ℕ} {σ κ : Type} (edges : List (EdgeR n))
    (hm : HeuristicModel n) (goal : Fin n) (fuel : ℕ)
    (st : SearchState n σ κ) :
    ((searchLoop edges false hm goal fuel st).2).props = st.props := by
  exact searchLoop_inv edges false hm goal (fun s => s.props = st.props)
    (fun s v hs => by
      show (stepState edges false hm v s).props = st.props
      rw [stepState_props_of_false]
      exact hs) fuel st rfl

/-- Claim C5 (amended): after a heuristic-precomputation pass (Dijkstra,
since `use_astar_hueristic_` is false) that examined the goal, every
vertex `g` field equals the tentative distance computed by the
early-exiting pass — not, in general, the true shortest-path distance —
and when the pass exhausted the frontier instead the `g` fields are left
unchanged. -/
theorem C5_amended {n : ℕ} {σ κ : Type} (edges : List (EdgeR n))
    (props0 : Fin n → VertexProperty σ κ) (heuristic : HeuristicModel n)
    (start goal : Fin n) (fcc : Bool) :
    ((computeShortestPath edges props0 heuristic start goal true fcc).outcome =
        Outcome.found →
      ∀ v, ((computeShortestPath edges props0 heuristic start goal true fcc).props v).g =
        (computeShortestPath edges props0 heuristic start goal true fcc).dist v) ∧
    ((computeShortestPath edges props0 heuristic start goal true fcc).outcome =
        Outcome.exhausted →
      ∀ v, ((computeShortestPath edges props0 heuristic start goal true fcc).props v).g =
        (props0 v).g) := by
  unfold computeShortestPath
  dsimp only
  have huse : searchUseH true = false := rfl
  rw [huse]
  rcases h : searchLoop edges false heuristic goal n
      (initialState props0 false heuristic start) with ⟨o, stf⟩
  have hprops : stf.props = props0 := by
    have hs := searchLoop_props_of_false edges heuristic goal n
      (initialState props0 false heuristic start)
    rw [h] at hs
    exact hs
  cases o with
  | found =>
    refine ⟨fun _ v => ?_, fun hc => by simp [assembleResult] at hc⟩
    simp [assembleResult]
  | exhausted =>
    refine ⟨fun hc => by simp [assembleResult] at hc, fun _ v => ?_⟩
    simp [assembleResult, hprops]
  | fuelOut =>
    exact ⟨fun hc => by simp [assembleResult] at hc,
      fun hc => by simp [assembleResult] at hc⟩

/-- Witness for C5 (amended): on the concrete path graph the precompute
pass finds the goal and copies the tentative distances into the `g`
fields. -/
theorem C5_amended_witness :
    ((computeShortestPath exEdgesPath exProps3
        (HeuristicModel.genericDistance (fun _ => 0)) 0 1 true false).props 2).g =
      (computeShortestPath exEdgesPath exProps3
        (HeuristicModel.genericDistance (fun _ => 0)) 0 1 true false).dist 2 :=
  (C5_amended exEdgesPath exProps3
    (HeuristicModel.genericDistance (fun _ => 0)) 0 1 false).1 (by decide) 2

/-- Counterexample for C5: after the precompute pass on the path graph
(edges 0-1 and 1-2, source 0, goal 1), vertex 2 was never reached before
the early exit, so its `g` field holds the infinite initial value even
though a walk 0-1-2 of cost 2 exists; hence `g` is not the single-source
shortest-path distance for all vertices. -/
theorem C5_counterexample :
    ((computeShortestPath exEdgesPath exProps3
        (HeuristicModel.genericDistance (fun _ => 0)) 0 1 true false).props 2).g =
      (⊤ : Cost) ∧
    ¬ IsShortestDistFrom exEdgesPath 0 2
      ((computeShortestPath exEdgesPath exProps3
        (HeuristicModel.genericDistance (fun _ => 0)) 0 1 true false).props 2).g := by
  have hg : ((computeShortestPath exEdgesPath exProps3
      (HeuristicModel.genericDistance (fun _ => 0)) 0 1 true false).props 2).g =
      (⊤ : Cost) := by decide
  refine ⟨hg, ?_⟩
  intro hsd
  have hlb := hsd.1 [0, 1, 2] ((2 : ℚ) : Cost) (by decide) (by decide) (by decide)
  rw [hg] at hlb
  exact absurd hlb (by decide)

theorem relaxNeighbor_true_eq {n : ℕ} {σ κ : Type} (hm : HeuristicModel n)
    (v : Fin n) (st : SearchState n σ κ) (uw : Fin n × Cost) :
    relaxNeighbor true hm v st uw =
      if st.dist v + uw.2 < st.dist uw.1 then
        ({ dist := Function.update st.dist uw.1 (st.dist v + uw.2),
           pred := Function.update st.pred uw.1 v,
           hval := Function.update st.hval uw.1 (evalHeuristic hm st.props uw.1).1,
           settled := st.settled,
           props := (evalHeuristic hm st.props uw.1).2 } : SearchState n σ κ)
      else st := by
  unfold relaxNeighbor
  split <;> rfl

theorem evalHeuristic_precomputed_eq {n : ℕ} {σ κ : Type}
    (valid : Fin n → Bool) (props : Fin n → VertexProperty σ κ) (v : Fin n) :
    evalHeuristic (HeuristicModel.precomputedCost valid) props v =
      if valid v then ((props v).g, props)
      else ((⊤ : Cost),
        Function.update props v { props v with blacklisted := true }) := rfl

theorem relaxNeighbor_blkinv {n : ℕ} {σ κ : Type}
    (props0 : Fin n → VertexProperty σ κ) (valid : Fin n → Bool) (v : Fin n)
    (st : SearchState n σ κ) (uw : Fin n × Cost)
    (hv : BlkInv props0 valid st) :
    BlkInv props0 valid
      (relaxNeighbor true (HeuristicModel.precomputedCost valid) v st uw) := by
  rw [relaxNeighbor_true_eq]
  split
  case isTrue himp =>
    rw [evalHeuristic_precomputed_eq]
    split
    case isTrue hval =>
      intro u
      by_cases hu : u = uw.1
      · subst hu
        dsimp only
        rw [Function.update_same]
        have h2 := hv uw.1
        simp only [hval] at h2 ⊢
        simpa using h2
      · dsimp only
        rw [Function.update_noteq hu]
        exact hv u
    case isFalse hval =>
      intro u
      by_cases hu : u = uw.1
      · subst hu
        dsimp only
        rw [Function.update_same, Function.update_same]
        constructor
        · intro _
          exact Or.inr ⟨by simpa using hval, lt_of_lt_of_le himp le_top⟩
        · intro _
          rfl
      · dsimp only
        rw [Function.update_noteq hu, Function.update_noteq hu]
        exact hv u
  case isFalse => exact hv

theorem relaxFold_blkinv {n : ℕ} {σ κ : Type}
    (props0 : Fin n → VertexProperty σ κ) (valid : Fin n → Bool) (v : Fin n) :
    ∀ (l : List (Fin n × Cost)) (st : SearchState n σ κ),
      BlkInv props0 valid st →
      BlkInv props0 valid
        (l.foldl (relaxNeighbor true (HeuristicModel.precomputedCost valid) v) st) := by
  intro l
  induction l with
  | nil => intro st h; exact h
  | cons uw l ih =>
    intro st h
    simp only [List.foldl_cons]
    exact ih _ (relaxNeighbor_blkinv props0 valid v st uw h)

theorem stepState_blkinv {n : ℕ} {σ κ : Type} (edges : List (EdgeR n))
    (props0 : Fin n → VertexProperty σ κ) (valid : Fin n → Bool) (v : Fin n)
    (st : SearchState n σ κ) (h : BlkInv props0 valid st) :
    BlkInv props0 valid
      (stepState edges true (HeuristicModel.precomputedCost valid) v st) := by
  unfold stepState
  dsimp only
  intro u
  exact relaxFold_blkinv props0 valid v (incidentList edges v) st h u

theorem initialState_true_eq {n : ℕ} {σ κ : Type}
    (props : Fin n → VertexProperty σ κ) (hm : HeuristicModel n)
    (start : Fin n) :
    initialState props true hm start =
      { dist := Function.update (fun _ => (⊤ : Cost)) start 0,
        pred := fun v => v,
        hval := Function.update (fun _ => (0 : Cost)) start
          (evalHeuristic hm props start).1,
        settled := ∅,
        props := (evalHeuristic hm props start).2 } := by
  unfold initialState
  rfl

theorem initialState_blkinv {n : ℕ} {σ κ : Type}
    (props0 : Fin n → VertexProperty σ κ) (valid : Fin n → Bool)
    (start : Fin n) :
    BlkInv props0 valid
      (initialState props0 true (HeuristicModel.precomputedCost valid) start) := by
  rw [initialState_true_eq, evalHeuristic_precomputed_eq]
  split
  case isTrue hval =>
    intro u
    by_cases hu : u = start
    · subst hu
      dsimp only
      simp only [hval]
      simp
    · dsimp only
      rw [Function.update_noteq hu]
      simp
  case isFalse hval =>
    intro u
    by_cases hu : u = start
    · subst hu
      dsimp only
      rw [Function.update_same, Function.update_same]
      constructor
      · intro _
        refine Or.inr ⟨by simpa using hval, ?_⟩
        exact WithTop.coe_lt_top 0
      · intro _
        rfl
    · dsimp only
      rw [Function.update_noteq hu, Function.update_noteq hu]
      simp

theorem blacklistWeights_spec {n : ℕ} {σ κ : Type}
    (props : Fin n → VertexProperty σ κ) (path : List (Fin n)) (fcc : Bool)
    (weights : List (EdgeR n)) :
    (blacklistWeights props path fcc weights).length = weights.length ∧
    ∀ i e, weights.get? i = some e →
      ∃ e2, (blacklistWeights props path fcc weights).get? i = some e2 ∧
        e2.src = e.src ∧ e2.dst = e.dst ∧
        (e2.w = e.w ∨ (e2.w = (⊤ : Cost) ∧ fcc = true ∧
          ∃ v, v ∈ path ∧ (props v).blacklisted = true ∧
            (e.src = v ∨ e.dst = v))) := by
  unfold blacklistWeights
  split
  case isTrue hfcc =>
    refine ⟨List.length_map _ _, ?_⟩
    intro i e he
    refine ⟨_, by rw [List.get?_map, he]; rfl, ?_⟩
    dsimp only
    by_cases hc :
        path.any (fun v => (props v).blacklisted && (e.src = v || e.dst = v)) = true
    · rw [if_pos hc]
      refine ⟨rfl, rfl, Or.inr ⟨rfl, hfcc, ?_⟩⟩
      obtain ⟨x, hx, hpx⟩ := List.any_eq_true.mp hc
      rw [Bool.and_eq_true, Bool.or_eq_true] at hpx
      refine ⟨x, hx, hpx.1, ?_⟩
      rcases hpx.2 with h1 | h1
      · exact Or.inl (by simpa using h1)
      · exact Or.inr (by simpa using h1)
    · rw [if_neg hc]
      exact ⟨rfl, rfl, Or.inl rfl⟩
  case isFalse =>
    exact ⟨rfl, fun i e he => ⟨e, he, rfl, rfl, Or.inl rfl⟩⟩

/-- Counterexample for C2: in the collision-checked search on the star
graph (edges 0-1 and 0-2, start 0, goal 1, full collision check on), the
invalid vertex 2 is visited by the heuristic and blacklisted, yet its
incident edge 0-2 keeps its finite weight 1, because the weight map is
rewritten only along the reconstructed path; so it is false that every
edge incident to a visited invalid vertex receives the infinite
sentinel. -/
theorem C2_counterexample :
    (exRunBranch.props 2).blacklisted = true ∧
    exValid3 2 = false ∧
    exRunBranch.weights.get? 1 = some ⟨0, 2, ((1 : ℚ) : Cost)⟩ ∧
    ¬ (∀ e ∈ exRunBranch.weights,
        ((e.src = 2 ∨ e.dst = 2) → e.w = (⊤ : Cost))) := by
  refine ⟨by decide, by decide, by decide, by decide⟩

/-- Claim C2 (amended): during the collision-checked search a vertex ends
up blacklisted exactly when it already was, or its state fails the
validity oracle and the search discovered it (assigned it a finite
tentative distance); the search itself never terminates on an invalid
vertex and never removes vertices; edge weights change only after the
goal is found, only to the infinite sentinel, only when full collision
checking is on, and only for edges incident to a blacklisted vertex on
the returned path. -/
theorem C2_amended {n : ℕ} {σ κ : Type} (edges : List (EdgeR n))
    (props0 : Fin n → VertexProperty σ κ) (valid : Fin n → Bool)
    (start goal : Fin n) (fcc : Bool) :
    (∀ v, ((computeShortestPath edges props0
          (HeuristicModel.precomputedCost valid) start goal false fcc).props v).blacklisted =
        true ↔
      ((props0 v).blacklisted = true ∨ (valid v = false ∧
        (computeShortestPath edges props0
          (HeuristicModel.precomputedCost valid) start goal false fcc).dist v <
          (⊤ : Cost)))) ∧
    (computeShortestPath edges props0
      (HeuristicModel.precomputedCost valid) start goal false fcc).weights.length =
      edges.length ∧
    (∀ i e, edges.get? i = some e →
      ∃ e2, (computeShortestPath edges props0
          (HeuristicModel.precomputedCost valid) start goal false fcc).weights.get? i =
          some e2 ∧
        e2.src = e.src ∧ e2.dst = e.dst ∧
        (e2.w = e.w ∨ (e2.w = (⊤ : Cost) ∧ fcc = true ∧
          ∃ v, v ∈ (computeShortestPath edges props0
              (HeuristicModel.precomputedCost valid) start goal false fcc).path ∧
            ((computeShortestPath edges props0
              (HeuristicModel.precomputedCost valid) start goal false fcc).props v).blacklisted =
              true ∧
            (e.src = v ∨ e.dst = v)))) := by
  unfold computeShortestPath
  dsimp only
  have huse : searchUseH false = true := rfl
  rw [huse]
  rcases h : searchLoop edges true (HeuristicModel.precomputedCost valid) goal n
      (initialState props0 true (HeuristicModel.precomputedCost valid) start)
    with ⟨o, stf⟩
  have hblk : BlkInv props0 valid stf := by
    have hb := searchLoop_inv edges true (HeuristicModel.precomputedCost valid)
      goal (BlkInv props0 valid)
      (fun s v hs => stepState_blkinv edges props0 valid v s hs) n
      (initialState props0 true (HeuristicModel.precomputedCost valid) start)
      (initialState_blkinv props0 valid start)
    rw [h] at hb
    exact hb
  cases o with
  | found =>
    refine ⟨fun v => ?_, ?_, ?_⟩
    · simpa [assembleResult] using hblk v
    · simpa [assembleResult] using
        (blacklistWeights_spec (fun v => { stf.props v with g := stf.dist v })
          (reconstructAux stf.pred n goal []) fcc edges).1
    · intro i e he
      obtain ⟨e2, h1, h2, h3, h4⟩ :=
        (blacklistWeights_spec (fun v => { stf.props v with g := stf.dist v })
          (reconstructAux stf.pred n goal []) fcc edges).2 i e he
      refine ⟨e2, by simpa [assembleResult] using h1, h2, h3, ?_⟩
      rcases h4 with h4 | ⟨hw, hf, x, hx, hb, hsd⟩
      · exact Or.inl h4
      · exact Or.inr ⟨hw, hf, x, by simpa [assembleResult] using hx,
          by simpa [assembleResult] using hb, hsd⟩
  | exhausted =>
    refine ⟨fun v => by simpa [assembleResult] using hblk v, rfl, ?_⟩
    intro i e he
    exact ⟨e, he, rfl, rfl, Or.inl rfl⟩
  | fuelOut =>
    refine ⟨fun v => by simpa [assembleResult] using hblk v, rfl, ?_⟩
    intro i e he
    exact ⟨e, he, rfl, rfl, Or.inl rfl⟩

/-- Witness for C2 (amended): on the chain graph the blacklisted vertex 2
lies on the returned path and the weight of edge 0-2 is rewritten to the
infinite sentinel. -/
theorem C2_amended_witness :
    ∃ e2, (computeShortestPath exEdgesChain exProps3
        (HeuristicModel.precomputedCost exValid3) 0 1 false true).weights.get? 0 =
        some e2 ∧
      e2.src = (⟨0, 2, ((1 : ℚ) : Cost)⟩ : EdgeR 3).src ∧
      e2.dst = (⟨0, 2, ((1 : ℚ) : Cost)⟩ : EdgeR 3).dst ∧
      (e2.w = (⟨0, 2, ((1 : ℚ) : Cost)⟩ : EdgeR 3).w ∨
        (e2.w = (⊤ : Cost) ∧ true = true ∧
          ∃ v, v ∈ (computeShortestPath exEdgesChain exProps3
              (HeuristicModel.precomputedCost exValid3) 0 1 false true).path ∧
            ((computeShortestPath exEdgesChain exProps3
              (HeuristicModel.precomputedCost exValid3) 0 1 false true).props v).blacklisted =
              true ∧
            ((⟨0, 2, ((1 : ℚ) : Cost)⟩ : EdgeR 3).src = v ∨
              (⟨0, 2, ((1 : ℚ) : Cost)⟩ : EdgeR 3).dst = v))) :=
  (C2_amended exEdgesChain exProps3 exValid3 0 1 true).2.2 0
    ⟨0, 2, ((1 : ℚ) : Cost)⟩ (by decide)

theorem get?_append_some {α : Type} :
    ∀ (l l2 : List α) (i : ℕ) (x : α),
      l.get? i = some x → (l ++ l2).get? i = some x := by
  intro l
  induction l with
  | nil => intro l2 i x h; simp at h
  | cons a t ih =>
    intro l2 i x h
    cases i with
    | zero => simpa using h
    | succ i =>
      simp only [List.get?_cons_succ] at h
      simp only [List.cons_append, List.get?_cons_succ]
      exact ih _ _ _ h

theorem get?_concat_self {α : Type} :
    ∀ (l : List α) (x : α), (l ++ [x]).get? l.length = some x := by
  intro l
  induction l with
  | nil => intro x; rfl
  | cons a t ih => intro x; simp only [List.cons_append, List.length_cons,
      List.get?_cons_succ]; exact ih x

theorem expandControlStep_preserves {σ κ : Type} (valid : σ → Bool)
    (prop : σ → κ → ℕ → List σ) (g : ControlGraph σ κ) (cand : ℕ × κ × ℕ)
    (h : ∀ e ∈ g.edges, ControlEdgeValid valid prop g e) :
    ∀ e ∈ (expandControlStep valid prop g cand).edges,
      ControlEdgeValid valid prop (expandControlStep valid prop g cand) e := by
  unfold expandControlStep
  rcases hs : g.verts.get? cand.1 with _ | s
  · exact h
  · dsimp only
    rcases hl : (prop s cand.2.1 cand.2.2).getLast? with _ | t
    · exact h
    · dsimp only
      by_cases hall : (prop s cand.2.1 cand.2.2).all valid = true
      · rw [if_pos hall]
        intro e he
        rcases List.mem_append.mp he with he | he
        · obtain ⟨s0, t0, h1, h2, h3, h4⟩ := h e he
          exact ⟨s0, t0, get?_append_some _ _ _ _ h1, h2, h3,
            get?_append_some _ _ _ _ h4⟩
        · rcases List.mem_singleton.mp he with rfl
          refine ⟨s, t, get?_append_some _ _ _ _ hs, hl, hall, ?_⟩
          exact get?_concat_self _ _
      · rw [if_neg hall]
        exact h

/-- Claim C3: invariant of the control graph: every edge present after a
batch of expansions has a forward simulation of its `(control, duration)`
label from its source state that passes the validity oracle everywhere,
and its destination vertex holds exactly the simulated endpoint; a
candidate whose simulation fails validity leaves the graph completely
unchanged. -/
theorem C3_control_edges_valid {σ κ : Type} (valid : σ → Bool)
    (prop : σ → κ → ℕ → List σ) (g0 : ControlGraph σ κ)
    (cands : List (ℕ × κ × ℕ))
    (hinv : ∀ e ∈ g0.edges, ControlEdgeValid valid prop g0 e) :
    (∀ e ∈ (expandControlGraph valid prop g0 cands).edges,
      ControlEdgeValid valid prop (expandControlGraph valid prop g0 cands) e) ∧
    (∀ (g : ControlGraph σ κ) (i : ℕ) (c : κ) (d : ℕ) (s : σ),
      g.verts.get? i = some s → (prop s c d).all valid = false →
      expandControlStep valid prop g (i, c, d) = g) := by
  constructor
  · have hmain : ∀ (cs : List (ℕ × κ × ℕ)) (g : ControlGraph σ κ),
        (∀ e ∈ g.edges, ControlEdgeValid valid prop g e) →
        ∀ e ∈ (expandControlGraph valid prop g cs).edges,
          ControlEdgeValid valid prop (expandControlGraph valid prop g cs) e := by
      intro cs
      induction cs with
      | nil => intro g h; exact h
      | cons cand rest ih =>
        intro g h
        simp only [expandControlGraph, List.foldl_cons]
        exact ih _ (expandControlStep_preserves valid prop g cand h)
    exact hmain cands g0 hinv
  · intro g i c d s hs hall
    unfold expandControlStep
    rw [hs]
    dsimp only
    rcases hl : (prop s c d).getLast? with _ | t
    · rfl
    · dsimp only
      rw [if_neg (by simp [hall])]

/-- Witness for C3: expanding the one-vertex control graph with a valid
candidate yields a graph whose single edge satisfies the feasibility
invariant. -/
theorem C3_witness :
    ControlEdgeValid (fun _ => true) exPropagateTraj
      (expandControlGraph (fun _ => true) exPropagateTraj exCGraph [(0, 1, 4)])
      ⟨0, 1, 1, 4⟩ :=
  (C3_control_edges_valid (fun _ => true) exPropagateTraj exCGraph [(0, 1, 4)]
    (by intro e he; exact absurd he (List.not_mem_nil e))).1
    ⟨0, 1, 1, 4⟩ (by decide)

theorem updateBestWith_le {P : Type} (cur : Cost) (curP : Option P)
    (cand : Option (Cost × P)) :
    (updateBestWith cur curP cand).1 ≤ cur := by
  unfold updateBestWith
  rcases cand with _ | ⟨c, p⟩
  · exact le_refl _
  · dsimp only
    split
    case isTrue h => exact le_of_lt h
    case isFalse => exact le_refl _

theorem updateBestWith_overwrite {P : Type} (cur : Cost) (curP : Option P)
    (cand : Option (Cost × P))
    (h : (updateBestWith cur curP cand).2 ≠ curP) :
    ∃ c p, cand = some (c, p) ∧ c < cur ∧
      (updateBestWith cur curP cand).1 = c ∧
      (updateBestWith cur curP cand).2 = some p := by
  unfold updateBestWith at h ⊢
  rcases cand with _ | ⟨c, p⟩
  · exact absurd rfl h
  · dsimp only at h ⊢
    by_cases hlt : c < cur
    · exact ⟨c, p, rfl, hlt, by rw [if_pos hlt], by rw [if_pos hlt]⟩
    · rw [if_neg hlt] at h
      exact absurd rfl h

theorem solveRound_le {P : Type} (b : BestPathState P) (r : RoundCandidate P) :
    (solveRound b r).bestGeometricCost ≤ b.bestGeometricCost ∧
    (solveRound b r).bestControlCost ≤ b.bestControlCost :=
  ⟨updateBestWith_le _ _ _, updateBestWith_le _ _ _⟩

theorem solveRounds_le {P : Type} :
    ∀ (rs : List (RoundCandidate P)) (b : BestPathState P),
      (solveRounds b rs).bestGeometricCost ≤ b.bestGeometricCost ∧
      (solveRounds b rs).bestControlCost ≤ b.bestControlCost := by
  intro rs
  induction rs with
  | nil => exact fun b => ⟨le_refl _, le_refl _⟩
  | cons r rest ih =>
    intro b
    have h1 := solveRound_le b r
    have h2 := ih (solveRound b r)
    simp only [solveRounds, List.foldl_cons]
    exact ⟨le_trans h2.1 h1.1, le_trans h2.2 h1.2⟩

/-- Claim C4: within one `solve` call the recorded best geometric and best
control costs are monotonically non-increasing across rounds, and the
best-path records are overwritten only when a newly found path has a cost
strictly smaller than the recorded one. -/
theorem C4_best_monotone {P : Type} (b : BestPathState P)
    (rs1 rs2 : List (RoundCandidate P)) (r : RoundCandidate P) :
    (solveRounds b (rs1 ++ rs2)).bestGeometricCost ≤
      (solveRounds b rs1).bestGeometricCost ∧
    (solveRounds b (rs1 ++ rs2)).bestControlCost ≤
      (solveRounds b rs1).bestControlCost ∧
    ((solveRound b r).bestGeometricPath ≠ b.bestGeometricPath →
      ∃ c p, r.geometric = some (c, p) ∧ c < b.bestGeometricCost ∧
        (solveRound b r).bestGeometricCost = c ∧
        (solveRound b r).bestGeometricPath = some p) ∧
    ((solveRound b r).bestControlPath ≠ b.bestControlPath →
      ∃ c p, r.control = some (c, p) ∧ c < b.bestControlCost ∧
        (solveRound b r).bestControlCost = c ∧
        (solveRound b r).bestControlPath = some p) := by
  refine ⟨?_, ?_, ?_, ?_⟩
  · simp only [solveRounds, List.foldl_append]
    exact (solveRounds_le rs2 _).1
  · simp only [solveRounds, List.foldl_append]
    exact (solveRounds_le rs2 _).2
  · intro hne
    exact updateBestWith_overwrite _ _ _ hne
  · intro hne
    exact updateBestWith_overwrite _ _ _ hne

/-- Witness for C4: from the infinite initial record a round offering a
cost-5 geometric path overwrites the record with exactly that cost and
path. -/
theorem C4_witness :
    ∃ c p, exRound.geometric = some (c, p) ∧
      c < exBest0.bestGeometricCost ∧
      (solveRound exBest0 exRound).bestGeometricCost = c ∧
      (solveRound exBest0 exRound).bestGeometricPath = some p :=
  (C4_best_monotone exBest0 [] [] exRound).2.2.1 (by decide)

theorem withIdx_mem {σ : Type} :
    ∀ (l : List σ) (k i : ℕ) (x : σ),
      l.get? i = some x → (k + i, x) ∈ withIdx l k := by
  intro l
  induction l with
  | nil => intro k i x h; simp at h
  | cons a t ih =>
    intro k i x h
    cases i with
    | zero =>
      simp only [List.get?_cons_zero, Option.some.injEq] at h
      subst h
      simp [withIdx]
    | succ i =>
      simp only [List.get?_cons_succ] at h
      have hmem := ih (k + 1) i x h
      have heq : k + (i + 1) = (k + 1) + i := by omega
      rw [heq]
      exact List.mem_cons_of_mem _ hmem

theorem withIdx_zero_mem {σ : Type} (l : List σ) (i : ℕ) (x : σ)
    (h : l.get? i = some x) : (i, x) ∈ withIdx l 0 := by
  have hmem := withIdx_mem l 0 i x h
  simpa using hmem

theorem get?_concat_cases {α : Type} :
    ∀ (l : List α) (x : α) (i : ℕ) (y : α),
      (l ++ [x]).get? i = some y →
      (l.get? i = some y ∨ (i = l.length ∧ y = x)) := by
  intro l
  induction l with
  | nil =>
    intro x i y h
    cases i with
    | zero =>
      simp only [List.nil_append, List.get?_cons_zero, Option.some.injEq] at h
      exact Or.inr ⟨rfl, h.symm⟩
    | succ i => simp at h
  | cons a t ih =>
    intro x i y h
    cases i with
    | zero =>
      simp only [List.cons_append, List.get?_cons_zero] at h
      exact Or.inl h
    | succ i =>
      simp only [List.cons_append, List.get?_cons_succ] at h
      rcases ih x i y h with h1 | ⟨h1, h2⟩
      · exact Or.inl h1
      · exact Or.inr ⟨by simp [h1], h2⟩

theorem expandGeoStep_preserves {σ : Type} (dist : σ → σ → ℚ)
    (minD maxD radius : ℚ) (maxN : ℕ)
    (hsym : ∀ a b, dist a b = dist b a) (hmr : minD ≤ radius)
    (g : GeoGraph σ) (s : σ) (hsep : Separated dist minD g.verts) :
    Separated dist minD (expandGeoStep dist minD maxD radius maxN g s).verts ∧
    (∀ e ∈ (expandGeoStep dist minD maxD radius maxN g s).edges,
      e ∈ g.edges ∨ (minD ≤ e.2.2 ∧ e.2.2 ≤ maxD)) := by
  unfold expandGeoStep
  dsimp only
  by_cases hdup :
      ((withIdx g.verts 0).filter (fun p => decide (dist s p.2 ≤ radius))).any
        (fun p => decide (dist s p.2 < minD)) = true
  · rw [if_pos hdup]
    exact ⟨hsep, fun e he => Or.inl he⟩
  · rw [if_neg hdup]
    have hno : ∀ x ∈ (withIdx g.verts 0).filter
        (fun p => decide (dist s p.2 ≤ radius)), ¬ (dist s x.2 < minD) := by
      intro x hx hlt
      exact hdup (List.any_eq_true.mpr ⟨x, hx, by simpa using hlt⟩)
    have hfar : ∀ i si, g.verts.get? i = some si → minD ≤ dist s si := by
      intro i si hi
      by_contra hlt
      push_neg at hlt
      have hrad : dist s si ≤ radius := le_trans (le_of_lt hlt) hmr
      have hmem : (i, si) ∈ (withIdx g.verts 0).filter
          (fun p => decide (dist s p.2 ≤ radius)) :=
        List.mem_filter.mpr ⟨withIdx_zero_mem _ _ _ hi, by simpa using hrad⟩
      exact hno _ hmem hlt
    constructor
    · intro i j si sj hij hi hj
      rcases get?_concat_cases _ _ _ _ hi with hi1 | ⟨hi1, hi2⟩
      · rcases get?_concat_cases _ _ _ _ hj with hj1 | ⟨hj1, hj2⟩
        · exact hsep i j si sj hij hi1 hj1
        · subst hj2
          rw [hsym]
          exact hfar i si hi1
      · rcases get?_concat_cases _ _ _ _ hj with hj1 | ⟨hj1, hj2⟩
        · subst hi2
          exact hfar j sj hj1
        · exact absurd (hi1.trans hj1.symm) hij
    · intro e he
      rcases List.mem_append.mp he with he | he
      · exact Or.inl he
      · obtain ⟨p, hp, rfl⟩ := List.mem_map.mp he
        have hpf := List.mem_of_mem_take hp
        have hpmem := List.mem_filter.mp hpf
        have hmax : dist s p.2 ≤ maxD := by simpa using hpmem.2
        have hmin : minD ≤ dist s p.2 :=
          le_of_not_lt (hno _ hpmem.1)
        exact Or.inr ⟨hmin, hmax⟩

/-- Claim C8: during geometric expansion a sample within `min_dist` of an
existing vertex is rejected as a near-duplicate (deduplicated, no vertex
or edge added) and edges are only added with length at most `max_dist`;
consequently every added edge has weight between `min_dist` and
`max_dist`, and if no two vertices were closer than `min_dist` before a
batch then none are after it (provided the query radius covers the
deduplication distance and the metric is symmetric). -/
theorem C8_geometric_expansion {σ : Type} (dist : σ → σ → ℚ)
    (minD maxD radius : ℚ) (maxN : ℕ) (g : GeoGraph σ) (samples : List σ)
    (hsym : ∀ a b, dist a b = dist b a) (hmr : minD ≤ radius)
    (hsep : Separated dist minD g.verts) :
    Separated dist minD
      (expandGeometricGraph dist minD maxD radius maxN g samples).verts ∧
    (∀ e ∈ (expandGeometricGraph dist minD maxD radius maxN g samples).edges,
      e ∈ g.edges ∨ (minD ≤ e.2.2 ∧ e.2.2 ≤ maxD)) := by
  induction samples generalizing g with
  | nil => exact ⟨hsep, fun e he => Or.inl he⟩
  | cons s rest ih =>
    simp only [expandGeometricGraph, List.foldl_cons]
    have hstep := expandGeoStep_preserves dist minD maxD radius maxN hsym hmr g s hsep
    have hrest := ih (expandGeoStep dist minD maxD radius maxN g s) hstep.1
    refine ⟨hrest.1, ?_⟩
    intro e he
    rcases hrest.2 e he with h1 | h1
    · exact hstep.2 e h1
    · exact Or.inr h1

/-- Witness for C8: expanding the empty graph with two samples at
distance 2 keeps them separated by at least `min_dist = 1`. -/
theorem C8_witness : (1 : ℚ) ≤ exDistQ 0 2 :=
  (C8_geometric_expansion exDistQ 1 3 5 10 { verts := [], edges := [] } [0, 2]
    (fun a b => abs_sub_comm a b) (by norm_num)
    (fun i j si sj _ hi _ => absurd hi (by simp))).1
    0 1 0 2 (by decide) (by decide) (by decide)

theorem ControlFill_refl {n : ℕ} {σ κ : Type} (a : κ)
    (props : Fin n → VertexProperty σ κ) : ControlFill a props props :=
  fun _ => Or.inl rfl

theorem ControlFill_step {n : ℕ} {σ κ : Type} (a : κ)
    (props0 props : Fin n → VertexProperty σ κ)
    (h : ControlFill a props0 props) (i : Fin n) :
    ControlFill a props0
      (if (props i).control.isNone then
        Function.update props i { props i with control := some a }
      else props) := by
  split
  case isTrue hpn =>
    intro v
    by_cases hv : v = i
    · subst hv
      rw [Function.update_same]
      rcases h v with h1 | ⟨h2, h3⟩
      · refine Or.inr ⟨?_, by rw [h1]⟩
        rw [← h1]
        exact Option.isNone_iff_eq_none.mp hpn
      · exfalso
        rw [h3] at hpn
        simp at hpn
    · rw [Function.update_noteq hv]
      exact h v
  case isFalse => exact h

theorem populateAux_fill {n : ℕ} {σ κ : Type} (a : κ) (st : ℚ) :
    ∀ (l : List (Fin n)) (props0 props : Fin n → VertexProperty σ κ) (idx : ℕ),
      ControlFill a props0 props →
      ControlFill a props0 (populateAux a st l props idx).2 := by
  intro l
  induction l with
  | nil => intro props0 props idx h; exact h
  | cons i rest ih =>
    intro props0 props idx h
    simp only [populateAux]
    exact ih props0 _ (idx + 1) (ControlFill_step a props0 props h i)

theorem populateAux_length {n : ℕ} {σ κ : Type} (a : κ) (st : ℚ) :
    ∀ (l : List (Fin n)) (props : Fin n → VertexProperty σ κ) (idx : ℕ),
      (populateAux a st l props idx).1.length = l.length := by
  intro l
  induction l with
  | nil => intro props idx; rfl
  | cons i rest ih =>
    intro props idx
    simp only [populateAux]
    simp only [List.length_cons]
    rw [ih]

theorem populateAux_not_mem {n : ℕ} {σ κ : Type} (a : κ) (st : ℚ) :
    ∀ (l : List (Fin n)) (props : Fin n → VertexProperty σ κ) (idx : ℕ)
      (v : Fin n), v ∉ l → (populateAux a st l props idx).2 v = props v := by
  intro l
  induction l with
  | nil => intro props idx v _; rfl
  | cons i rest ih =>
    intro props idx v hv
    have hvi : v ≠ i := fun hc => hv (hc ▸ List.mem_cons_self i rest)
    have hvr : v ∉ rest := fun hc => hv (List.mem_cons_of_mem i hc)
    simp only [populateAux]
    rw [ih _ _ _ hvr]
    split
    case isTrue => rw [Function.update_noteq hvi]
    case isFalse => rfl

theorem populateAux_control_some {n : ℕ} {σ κ : Type} (a : κ) (st : ℚ) :
    ∀ (l : List (Fin n)) (props : Fin n → VertexProperty σ κ) (idx : ℕ)
      (v : Fin n) (c : κ), (props v).control = some c →
      ((populateAux a st l props idx).2 v).control = some c := by
  intro l
  induction l with
  | nil => intro props idx v c h; exact h
  | cons i rest ih =>
    intro props idx v c h
    simp only [populateAux]
    apply ih
    split
    case isTrue hpn =>
      by_cases hvi : v = i
      · subst hvi
        rw [h] at hpn
        simp at hpn
      · rw [Function.update_noteq hvi]
        exact h
    case isFalse => exact h

theorem populateAux_mem_control {n : ℕ} {σ κ : Type} (a : κ) (st : ℚ) :
    ∀ (l : List (Fin n)) (props : Fin n → VertexProperty σ κ) (idx : ℕ)
      (v : Fin n), v ∈ l → (props v).control = none →
      ((populateAux a st l props idx).2 v).control = some a := by
  intro l
  induction l with
  | nil => intro props idx v hv; exact absurd hv (List.not_mem_nil v)
  | cons i rest ih =>
    intro props idx v hv hnone
    simp only [populateAux]
    by_cases hvi : v = i
    · subst hvi
      have hpn : (props v).control.isNone = true := by simp [hnone]
      rw [if_pos hpn]
      apply populateAux_control_some
      rw [Function.update_same]
    · have hvr : v ∈ rest := by
        rcases List.mem_cons.mp hv with h1 | h1
        · exact absurd h1 hvi
        · exact h1
      apply ih _ _ _ hvr
      split
      · rw [Function.update_noteq hvi]; exact hnone
      · exact hnone

theorem populateAux_tail {n : ℕ} {σ κ : Type} (a : κ) (st : ℚ) :
    ∀ (l : List (Fin n)) (props props0 : Fin n → VertexProperty σ κ)
      (idx : ℕ), idx ≠ 0 → ControlFill a props0 props →
      ∀ (j : ℕ) (v : Fin n), l.get? j = some v →
        ∃ c, (populateAux a st l props idx).1.get? j =
            some (PathElem.withControl (props0 v).state c
              (((props0 v).control_duration : ℚ) * st)) ∧
          ((props0 v).control = some c ∨
            ((props0 v).control = none ∧ c = a)) := by
  intro l
  induction l with
  | nil => intro props props0 idx hidx hf j v hj; simp at hj
  | cons i rest ih =>
    intro props props0 idx hidx hf j v hj
    simp only [populateAux]
    cases j with
    | zero =>
      simp only [List.get?_cons_zero, Option.some.injEq] at hj
      subst hj
      rw [if_neg hidx]
      simp only [List.get?_cons_zero, Option.some.injEq]
      rcases hf i with h1 | ⟨h2, h3⟩
      · rcases hc : (props i).control with _ | c0
        · simp only [Option.isNone_none]
          rw [if_pos trivial, Function.update_same]
          refine ⟨a, ?_, Or.inr ⟨by rw [← h1, hc], rfl⟩⟩
          rw [← h1]
          rfl
        · simp only [Option.isNone_some]
          rw [if_neg (by simp)]
          refine ⟨c0, ?_, Or.inl (by rw [← h1, hc])⟩
          rw [← h1, hc]
          rfl
      · have hpn : ¬ ((props i).control.isNone = true) := by
          rw [h3]; simp
        rw [if_neg hpn, h3]
        exact ⟨a, rfl, Or.inr ⟨h2, rfl⟩⟩
    | succ j =>
      simp only [List.get?_cons_succ] at hj ⊢
      exact ih _ props0 (idx + 1) (by omega)
        (ControlFill_step a props0 props hf i) j v hj

/-- Counterexample for C7: the single-vertex path whose vertex carries a
recorded control of duration 3 is assembled as a bare state waypoint, not
as the `(state, control, duration)` triple the claim promises for a
vertex with a recorded control — the code branches on the position in the
list, not on whether a control is recorded. -/
theorem C7_counterexample :
    (exPropsCtrl 0).control = some 5 ∧
    (exPropsCtrl 0).control_duration = 3 ∧
    (populateOmplPathfromVertexPath [0] exPropsCtrl 9 1).1 =
      [PathElem.stateOnly 7] ∧
    (PathElem.stateOnly 7 : PathElem ℕ ℕ) ≠
      PathElem.withControl 7 5 (((3 : ℕ) : ℚ) * 1) := by
  refine ⟨by decide, by decide, by decide, by decide⟩

/-- Claim C7 (amended): `populateOmplPathfromVertexPath` emits exactly one
element per input vertex in order; the first vertex always contributes a
bare state waypoint regardless of any recorded control, and every later
vertex contributes `(state, control, control_duration * stepSize)`, where
a vertex without a recorded control first receives a freshly allocated
one. -/
theorem C7_amended {n : ℕ} {σ κ : Type} (l : List (Fin n))
    (props : Fin n → VertexProperty σ κ) (a : κ) (st : ℚ) :
    (populateOmplPathfromVertexPath l props a st).1.length = l.length ∧
    (∀ v0, l.get? 0 = some v0 →
      (populateOmplPathfromVertexPath l props a st).1.get? 0 =
        some (PathElem.stateOnly (props v0).state)) ∧
    (∀ (j : ℕ) (v : Fin n), l.get? (j + 1) = some v →
      ∃ c, (populateOmplPathfromVertexPath l props a st).1.get? (j + 1) =
          some (PathElem.withControl (props v).state c
            (((props v).control_duration : ℚ) * st)) ∧
        ((props v).control = some c ∨
          ((props v).control = none ∧ c = a))) := by
  unfold populateOmplPathfromVertexPath
  refine ⟨populateAux_length a st l props 0, ?_, ?_⟩
  · intro v0 h0
    cases l with
    | nil => simp at h0
    | cons i rest =>
      simp only [List.get?_cons_zero, Option.some.injEq] at h0
      subst h0
      simp only [populateAux]
      simp only [if_true]
      simp only [List.get?_cons_zero, Option.some.injEq]
      split
      · rw [Function.update_same]
      · rfl
  · intro j v hj
    cases l with
    | nil => simp at hj
    | cons i rest =>
      simp only [List.get?_cons_succ] at hj
      simp only [populateAux]
      simp only [List.get?_cons_succ]
      exact populateAux_tail a st rest _ props 1 (by omega)
        (ControlFill_step a props props (ControlFill_refl a props) i) j v hj

/-- Witness for C7 (amended): the two-vertex list is assembled as a bare
state waypoint followed by the recorded `(state, control, duration)`
triple of the second vertex. -/
theorem C7_amended_witness :
    ∃ c, (populateOmplPathfromVertexPath [0, 1] exPropsTwo 9 1).1.get? 1 =
        some (PathElem.withControl (exPropsTwo 1).state c
          (((exPropsTwo 1).control_duration : ℚ) * 1)) ∧
      ((exPropsTwo 1).control = some c ∨
        ((exPropsTwo 1).control = none ∧ c = 9)) :=
  (C7_amended [0, 1] exPropsTwo 9 1).2.2 0 1 (by decide)

/-- Claim C9: path assembly is not read-only on the graph: every vertex
of the input list whose control pointer is null has a freshly allocated
control stored into its graph property — whatever value the allocator
produced, with no zero-initialisation forced — while every other field of
every vertex, every already recorded control, and every vertex off the
list are left unchanged. -/
theorem C9_populate_frame {n : ℕ} {σ κ : Type} (l : List (Fin n))
    (props : Fin n → VertexProperty σ κ) (a : κ) (st : ℚ) (v : Fin n) :
    ((populateOmplPathfromVertexPath l props a st).2 v).state =
      (props v).state ∧
    ((populateOmplPathfromVertexPath l props a st).2 v).control_duration =
      (props v).control_duration ∧
    ((populateOmplPathfromVertexPath l props a st).2 v).id = (props v).id ∧
    ((populateOmplPathfromVertexPath l props a st).2 v).g = (props v).g ∧
    ((populateOmplPathfromVertexPath l props a st).2 v).blacklisted =
      (props v).blacklisted ∧
    (v ∉ l → (populateOmplPathfromVertexPath l props a st).2 v = props v) ∧
    (∀ c, (props v).control = some c →
      ((populateOmplPathfromVertexPath l props a st).2 v).control = some c) ∧
    (v ∈ l → (props v).control = none →
      ((populateOmplPathfromVertexPath l props a st).2 v).control = some a) := by
  unfold populateOmplPathfromVertexPath
  have hfill := populateAux_fill a st l props props 0
    (ControlFill_refl a props) v
  refine ⟨?_, ?_, ?_, ?_, ?_, ?_, ?_, ?_⟩
  · rcases hfill with h1 | ⟨_, h3⟩
    · rw [h1]
    · rw [h3]
  · rcases hfill with h1 | ⟨_, h3⟩
    · rw [h1]
    · rw [h3]
  · rcases hfill with h1 | ⟨_, h3⟩
    · rw [h1]
    · rw [h3]
  · rcases hfill with h1 | ⟨_, h3⟩
    · rw [h1]
    · rw [h3]
  · rcases hfill with h1 | ⟨_, h3⟩
    · rw [h1]
    · rw [h3]
  · exact populateAux_not_mem a st l props 0 v
  · exact fun c hc => populateAux_control_some a st l props 0 v c hc
  · exact fun hm hn => populateAux_mem_control a st l props 0 v hm hn

/-- Witness for C9: vertex 0 of the two-vertex list has no recorded
control, and assembly stores the allocated control 9 into its graph
property. -/
theorem C9_witness :
    ((populateOmplPathfromVertexPath [0, 1] exPropsTwo 9 1).2 0).control =
      some 9 :=
  (C9_populate_frame [0, 1] exPropsTwo 9 1 0).2.2.2.2.2.2.2
    (by decide) (by decide)

/-- Claim C10: `propagate` assigns the result position and yaw from the
bicycle-model update, writes the updated velocity through the substate
pointer into its start argument, and never assigns the velocity component
of the result state: the returned pair is (start after the call, result
after the call) and the result velocity is whatever it held before. -/
theorem C10_propagate_frame (trig : TrigModel) (start : SE2CompoundState)
    (control : ControlInput) (duration : ℚ) (result : SE2CompoundState) :
    (propagate trig start control duration result).2.velocity =
      result.velocity ∧
    (propagate trig start control duration result).1.velocity =
      start.velocity + control.acc * duration ∧
    (propagate trig start control duration result).1.x = start.x ∧
    (propagate trig start control duration result).1.y = start.y ∧
    (propagate trig start control duration result).1.yaw = start.yaw ∧
    (propagate trig start control duration result).2.x =
      start.x + start.velocity * duration * trig.cosF start.yaw ∧
    (propagate trig start control duration result).2.y =
      start.y + start.velocity * duration * trig.sinF start.yaw ∧
    (propagate trig start control duration result).2.yaw =
      start.yaw +
        start.velocity * (1 / vehicle_length) * trig.tanF control.steer *
          duration :=
  ⟨rfl, rfl, rfl, rfl, rfl, rfl, rfl, rfl⟩

end VoxNav
